import Mathlib

/-!
Shallow embedding of the convolutional variational autoencoder script
(variational_autoencoder/VAE.py) and proofs of its specified properties.

Modelling conventions:
* Tensors are total functions over Fin index types; real-valued tensor entries
  are modelled by the exact reals.
* Randomness is externalized: the standard-normal noise draw used by
  reparameterize is an explicit argument, and a training batch pairs each
  image with the noise vector drawn for it.
* Data preparation works over the rationals, which suffice for the division
  by 255 and the 0.5 threshold comparison and keep the pipeline executable.
* The GIF frame-selection loop is embedded with the rounded spacing value
  carried in the loop state; the variable last of the source is only ever
  read through round, and the lemma roundFrame_eq_round ties the executable
  rounding to the expression round (2 * sqrt i) computed by the source.
-/

open scoped BigOperators

/-- Real vector of dimension n, the embedding of a rank-1 float tensor. -/
abbrev RVec (n : ℕ) : Type := Fin n → ℝ

/-- Single-channel 28 x 28 image tensor, the shape (28, 28, 1) of the source. -/
abbrev ImageT : Type := Fin 28 → Fin 28 → Fin 1 → ℝ

/-- Embedding of the CVAE model: the inference net is the composition of the
convolution stack with the final Dense layer of latent_dim + latent_dim units,
and the generative net maps a latent vector to the per-pixel logits at the
original image shape. -/
structure CVAE (latent_dim : ℕ) : Type where
  inference_net : ImageT → RVec (latent_dim + latent_dim)
  generative_net : RVec latent_dim → ImageT

/-- Embedding of CVAE.encode: the inference net output is split into two even
halves along the feature axis, mean first and logvar second. -/
def CVAE.encode {d : ℕ} (m : CVAE d) (x : ImageT) : RVec d × RVec d :=
  (fun i => m.inference_net x (Fin.castAdd d i),
   fun i => m.inference_net x (Fin.natAdd d i))

/-- Embedding of CVAE.reparameterize with the standard-normal draw eps
passed explicitly: eps * exp(logvar * 0.5) + mean, elementwise. -/
noncomputable def reparameterize {d : ℕ} (mean logvar eps : RVec d) : RVec d :=
  fun i => eps i * Real.exp (logvar i * 0.5) + mean i

/-- Logistic sigmoid, as applied by tf.sigmoid. -/
noncomputable def sigmoid (x : ℝ) : ℝ := 1 / (1 + Real.exp (-x))

/-- Embedding of CVAE.decode: the generative net produces logits, optionally
passed through the sigmoid. -/
noncomputable def CVAE.decode {d : ℕ} (m : CVAE d) (z : RVec d)
    (apply_sigmoid : Bool) : ImageT :=
  if apply_sigmoid then fun i j c => sigmoid (m.generative_net z i j c)
  else m.generative_net z

/-- Constant log2pi of the source, log(2 * pi). -/
noncomputable def log2pi : ℝ := Real.log (2 * Real.pi)

/-- Embedding of log_normal_pdf: the sum over the reduction axis of
-0.5 * ((sample - mean)^2 * exp(-logvar) + logvar + log2pi). -/
noncomputable def log_normal_pdf {n : ℕ} (sample mean logvar : RVec n) : ℝ :=
  ∑ i, -0.5 * ((sample i - mean i) ^ 2 * Real.exp (-logvar i) + logvar i + log2pi)

/-- Embedding of tf.nn.sigmoid_cross_entropy_with_logits on one entry,
using the numerically stable closed form documented by the framework:
max(x, 0) - x * z + log(1 + exp(-abs x)) for logits x and labels z. -/
noncomputable def sigmoid_cross_entropy_with_logits (logits labels : ℝ) : ℝ :=
  max logits 0 - logits * labels + Real.log (1 + Real.exp (-|logits|))

/-- Embedding of tf.reduce_mean on a rank-1 tensor: sum divided by length. -/
noncomputable def reduce_mean (l : List ℝ) : ℝ := l.sum / l.length

/-- Embedding of compute_loss. A batch pairs each image with the noise
vector drawn inside reparameterize for that example. Follows the source:
encode, reparameterize, decode to logits, per-pixel sigmoid cross-entropy
summed over axes 1, 2, 3 and negated, the two Gaussian log-densities, and
the negated mean over the batch. -/
noncomputable def compute_loss {d : ℕ} (m : CVAE d)
    (batch : List (ImageT × RVec d)) : ℝ :=
  - reduce_mean (batch.map (fun xe =>
      let mean := (m.encode xe.1).1
      let logvar := (m.encode xe.1).2
      let z := reparameterize mean logvar xe.2
      let x_logit := m.decode z false
      let cross_entropy : ImageT := fun i j c =>
        sigmoid_cross_entropy_with_logits (x_logit i j c) (xe.1 i j c)
      let logpx_z := - ∑ i, ∑ j, ∑ c, cross_entropy i j c
      let logpz := log_normal_pdf z (fun _ => 0) (fun _ => 0)
      let logqz_x := log_normal_pdf z mean logvar
      logpx_z + logpz - logqz_x))

/-- Output spatial size of a VALID-padding strided convolution, the formula
used by the framework for the two encoder convolutions. -/
def conv2d_valid_out (n k s : ℕ) : ℕ := (n - k) / s + 1

/-- Output spatial size of a SAME-padding strided transposed convolution,
the formula used by the framework for the three decoder deconvolutions. -/
def conv2d_transpose_same_out (n s : ℕ) : ℕ := n * s

/-- Batched encode: encode applied to every image of the batch. -/
def encodeBatch {d : ℕ} (m : CVAE d) (xs : List ImageT) :
    List (RVec d) × List (RVec d) :=
  (xs.map fun x => (m.encode x).1, xs.map fun x => (m.encode x).2)

/-- Batched reparameterize: each (mean, logvar) pair is combined with the
noise vector drawn for its example. -/
noncomputable def reparameterizeBatch {d : ℕ}
    (means logvars eps : List (RVec d)) : List (RVec d) :=
  List.zipWith (fun p e => reparameterize p.1 p.2 e) (means.zip logvars) eps

/-- Batched decode to logits. -/
noncomputable def decodeBatch {d : ℕ} (m : CVAE d) (zs : List (RVec d)) :
    List ImageT :=
  zs.map fun z => m.decode z false

/-- Raw dataset image before preparation: 28 x 28 integer pixel values. -/
abbrev RawImage : Type := Fin 28 → Fin 28 → ℕ

/-- Prepared image after reshape to (28, 28, 1), normalization and
binarization, with rational pixel values. -/
abbrev PreparedImage : Type := Fin 28 → Fin 28 → Fin 1 → ℚ

/-- Normalization step of prepare_data: division of a raw pixel by 255. -/
def normalize_pixel (p : ℕ) : ℚ := (p : ℚ) / 255

/-- First masked assignment of prepare_data: pixels at or above 0.5
become 1, others are left unchanged. -/
def binarize_hi (v : ℚ) : ℚ := if 1 / 2 ≤ v then 1 else v

/-- Second masked assignment of prepare_data: pixels below 0.5 become 0,
others are left unchanged. -/
def binarize_lo (v : ℚ) : ℚ := if v < 1 / 2 then 0 else v

/-- Full per-pixel pipeline of prepare_data: normalize, then the two
masked assignments in source order. -/
def prepare_pixel (p : ℕ) : ℚ := binarize_lo (binarize_hi (normalize_pixel p))

/-- Per-image pipeline of prepare_data, adding the channel axis of the
reshape to (28, 28, 1). -/
def prepare_image (img : RawImage) : PreparedImage :=
  fun i j _ => prepare_pixel (img i j)

/-- Embedding of prepare_data on the train and test partitions. The label
arrays are discarded by the source and omitted here; shuffling and batching
only regroup the prepared images and do not alter pixel values. -/
def prepare_data (train test : List RawImage) :
    List PreparedImage × List PreparedImage :=
  (train.map prepare_image, test.map prepare_image)

/-- Structurally recursive integer square root, kernel-reducible; the lemma
natSqrtIter_eq proves it equal to Nat.sqrt. -/
def natSqrtIter : ℕ → ℕ
  | 0 => 0
  | n + 1 =>
    let s := natSqrtIter n
    if (s + 1) * (s + 1) ≤ n + 1 then s + 1 else s

/-- Rounded spacing value of frame i in draw_gif, an executable form of
round (2 * sqrt i); the lemma roundFrame_eq_round proves the equality. -/
def roundFrame (i : ℕ) : ℕ := (natSqrtIter (16 * i) + 1) / 2

/-- Selection loop of draw_gif over the remaining frame indices. The state
rlast is round(last) of the source: last is initialized to -1 and only ever
read through round, so the loop carries the rounded value, updated to the
spacing value of each kept frame. -/
def selectLoop : List ℕ → ℤ → List ℕ
  | [], _ => []
  | i :: rest, rlast =>
    if rlast < (roundFrame i : ℤ) then i :: selectLoop rest (roundFrame i)
    else selectLoop rest rlast

/-- Frames kept by the selection loop of draw_gif over indices 0..n-1. -/
def selectFrames (n : ℕ) : List ℕ := selectLoop (List.range n) (-1)

/-- Embedding of draw_gif on n sorted frame files with indices 0..n-1,
returning the sequence of frame indices written to the animation. The
post-loop append reads the loop variable filename, which after the loop
holds the last iterated element and is unbound when the glob matched no
file, in which case the uncaught NameError is modelled as an error value. -/
def draw_gif (n : ℕ) : Except String (List ℕ) :=
  match (List.range n).getLast? with
  | none => Except.error "NameError: name filename is not defined"
  | some f => Except.ok (selectFrames n ++ [f])

/-- Observable events of the training loop: one per epoch of training, and
one per evaluation-and-render side effect carrying the latent vectors
decoded for visualization. -/
inductive TrainEvent (V : Type) : Type where
  | trainEpoch : ℕ → TrainEvent V
  | evalAndRender : ℕ → V → TrainEvent V

/-- Epoch count fixed by the entry point of the source. -/
def epochs : ℕ := 100

/-- Embedding of the main training loop as its sequence of observable
events: every epoch e trains, and when e is a multiple of 10 the held-out
evaluation and the rendering of the fixed pre-sampled latent vectors rv
follow in the same epoch. -/
def trainingRun (V : Type) (epochsN : ℕ) (rv : V) : List (TrainEvent V) :=
  (List.range epochsN).flatMap fun e =>
    TrainEvent.trainEpoch e ::
      (if e % 10 = 0 then [TrainEvent.evalAndRender e rv] else [])

/-- Projection extracting the epoch of a training event, none on the
evaluation events. -/
def epochOfTrainStep {V : Type} : TrainEvent V → Option ℕ
  | TrainEvent.trainEpoch e => some e
  | TrainEvent.evalAndRender _ _ => none

/-- Zero image, used to instantiate batch-level statements. -/
def zeroImage : ImageT := fun _ _ _ => 0

/-- Zero latent vector of dimension 1, used to instantiate batch-level
statements. -/
def zeroVec1 : RVec 1 := fun _ => 0

/-- Constant-zero model of latent dimension 1, used to instantiate
shape-invariant statements. -/
def trivialCVAE : CVAE 1 where
  inference_net := fun _ _ => 0
  generative_net := fun _ _ _ _ => 0

/-- All-zero raw image, used to instantiate data-preparation statements. -/
def rawZeroImage : RawImage := fun _ _ => 0

/-- Claim C1: for every model and every batch, compute_loss returns the
negative mean over the batch of the per-example quantity
logpx_z + logpz - logqz_x, where logpx_z is the negated sigmoid
cross-entropy between the decoder logits and the pixels summed over all
pixel dimensions, logpz the Gaussian log-density of the latent sample under
mean 0 and log-variance 0, and logqz_x the Gaussian log-density of the
latent sample under the encoder (mean, logvar). -/
theorem compute_loss_neg_mean_elbo {d : ℕ} (m : CVAE d)
    (batch : List (ImageT × RVec d)) :
    compute_loss m batch =
      - ((batch.map (fun xe =>
            (- ∑ i, ∑ j, ∑ c, sigmoid_cross_entropy_with_logits
                 (m.decode (reparameterize (m.encode xe.1).1 (m.encode xe.1).2 xe.2)
                   false i j c)
                 (xe.1 i j c))
            + log_normal_pdf (reparameterize (m.encode xe.1).1 (m.encode xe.1).2 xe.2)
                (fun _ => 0) (fun _ => 0)
            - log_normal_pdf (reparameterize (m.encode xe.1).1 (m.encode xe.1).2 xe.2)
                (m.encode xe.1).1 (m.encode xe.1).2)).sum
         / ((batch.length : ℝ))) := by
  unfold compute_loss reduce_mean
  rw [List.length_map]

/-- Claim C2: reparameterize is a deterministic function of
(mean, logvar, noise): with the noise draw eps fixed, the returned latent
sample equals eps * exp(0.5 * logvar) + mean elementwise; it has the same
shape as mean by the type of the embedding. -/
theorem reparameterize_deterministic {d : ℕ} (mean logvar eps : RVec d) :
    ∀ i : Fin d, reparameterize mean logvar eps i
      = eps i * Real.exp (0.5 * logvar i) + mean i := by
  intro i
  simp [reparameterize, mul_comm]

/-- Claim C3: the Gaussian log-density helper equals the closed-form
analytic value: on a single dimension with sample, mean and logvar all
zero it is -0.5 * log(2 * pi), and in general it is the sum over the
reduction axis of -0.5 * ((sample - mean)^2 * exp(-logvar) + logvar
+ log(2 * pi)). -/
theorem log_normal_pdf_closed_form :
    log_normal_pdf (fun _ : Fin 1 => (0 : ℝ)) (fun _ => 0) (fun _ => 0)
        = -0.5 * Real.log (2 * Real.pi) ∧
    ∀ (n : ℕ) (sample mean logvar : RVec n),
      log_normal_pdf sample mean logvar
        = ∑ i, -0.5 * ((sample i - mean i) ^ 2 * Real.exp (-logvar i)
            + logvar i + Real.log (2 * Real.pi)) := by
  constructor
  · simp [log_normal_pdf, log2pi]
  · intro n sample mean logvar
    rfl

/-- Helper: a normalized value at or above the threshold comes out of the
two masked assignments as exactly 1. -/
theorem binarize_of_ge_half {v : ℚ} (h : 1 / 2 ≤ v) :
    binarize_lo (binarize_hi v) = 1 := by
  unfold binarize_lo binarize_hi
  rw [if_pos h, if_neg (by norm_num : ¬ (1 : ℚ) < 1 / 2)]

/-- Helper: a normalized value strictly below the threshold comes out of
the two masked assignments as exactly 0. -/
theorem binarize_of_lt_half {v : ℚ} (h : v < 1 / 2) :
    binarize_lo (binarize_hi v) = 0 := by
  unfold binarize_lo binarize_hi
  rw [if_neg (not_le_of_lt h), if_pos h]

/-- Helper: every prepared pixel is exactly 0 or exactly 1. -/
theorem prepare_pixel_binary (p : ℕ) :
    prepare_pixel p = 0 ∨ prepare_pixel p = 1 := by
  by_cases h : 1 / 2 ≤ normalize_pixel p
  · exact Or.inr (binarize_of_ge_half h)
  · exact Or.inl (binarize_of_lt_half (lt_of_not_le h))

/-- Claim C4: after data preparation (reshape to 28 x 28 x 1, division by
255, thresholding at 0.5), every pixel of every prepared train and test
image is exactly 0 or exactly 1; no intermediate value survives. -/
theorem prepare_data_binary (train test : List RawImage) :
    (∀ img ∈ (prepare_data train test).1, ∀ (i j : Fin 28) (c : Fin 1),
        img i j c = 0 ∨ img i j c = 1) ∧
    (∀ img ∈ (prepare_data train test).2, ∀ (i j : Fin 28) (c : Fin 1),
        img i j c = 0 ∨ img i j c = 1) := by
  constructor <;>
  · intro img hmem i j c
    simp only [prepare_data, List.mem_map] at hmem
    obtain ⟨raw, _, rfl⟩ := hmem
    exact prepare_pixel_binary (raw i j)

/-- Witness for claim C4 at a concrete one-image train partition. -/
theorem prepare_data_binary_witness :
    prepare_image rawZeroImage ∈ (prepare_data [rawZeroImage] []).1 ∧
    (prepare_image rawZeroImage 0 0 0 = 0 ∨ prepare_image rawZeroImage 0 0 0 = 1) :=
  ⟨List.mem_singleton.2 rfl,
   (prepare_data_binary [rawZeroImage] []).1 (prepare_image rawZeroImage)
     (List.mem_singleton.2 rfl) 0 0 0⟩

/-- Claim C10: the binarization threshold is inclusive on the high side:
a normalized value at or above 0.5, including exactly 0.5, maps to 1, and
a value strictly below 0.5 maps to 0, both for an arbitrary value fed to
the masked assignments and for the normalized value of a raw pixel. -/
theorem binarize_threshold_inclusive (v : ℚ) (p : ℕ) :
    (1 / 2 ≤ v → binarize_lo (binarize_hi v) = 1) ∧
    (v < 1 / 2 → binarize_lo (binarize_hi v) = 0) ∧
    (1 / 2 ≤ normalize_pixel p → prepare_pixel p = 1) ∧
    (normalize_pixel p < 1 / 2 → prepare_pixel p = 0) :=
  ⟨fun h => binarize_of_ge_half h,
   fun h => binarize_of_lt_half h,
   fun h => binarize_of_ge_half h,
   fun h => binarize_of_lt_half h⟩

/-- Witness for claim C10 at the exact threshold value 0.5 and at the raw
pixel 100, whose normalized value 100 / 255 is below the threshold. -/
theorem binarize_threshold_inclusive_witness :
    ((1 : ℚ) / 2 ≤ 1 / 2 ∧ binarize_lo (binarize_hi (1 / 2)) = 1) ∧
    (normalize_pixel 100 < 1 / 2 ∧ prepare_pixel 100 = 0) :=
  ⟨⟨le_refl _, (binarize_threshold_inclusive (1 / 2) 100).1 (le_refl _)⟩,
   ⟨by norm_num [normalize_pixel],
    (binarize_threshold_inclusive (1 / 2) 100).2.2.2
      (by norm_num [normalize_pixel])⟩⟩

/-- Claim C6: the encoder final dense layer produces latent_dim + latent_dim
outputs per example, split evenly into a mean vector and a log-variance
vector of dimensionality latent_dim each (the even split is the castAdd and
natAdd halves of the feature axis); the decoder accepts latent_dim inputs
and produces the original 28 x 28 x 1 shape (the types of the embedding),
the spatial sizes through the convolution stacks check out, and batch size
is preserved end-to-end through encode, reparameterize and decode. -/
theorem cvae_shape_invariants {d : ℕ} (m : CVAE d) (xs : List ImageT)
    (eps : List (RVec d)) (h : eps.length = xs.length) :
    (encodeBatch m xs).1.length = xs.length ∧
    (encodeBatch m xs).2.length = xs.length ∧
    (decodeBatch m (reparameterizeBatch (encodeBatch m xs).1
        (encodeBatch m xs).2 eps)).length = xs.length ∧
    (∀ (x : ImageT) (i : Fin d),
        (m.encode x).1 i = m.inference_net x (Fin.castAdd d i) ∧
        (m.encode x).2 i = m.inference_net x (Fin.natAdd d i)) ∧
    conv2d_valid_out (conv2d_valid_out 28 3 2) 3 2 = 6 ∧
    conv2d_transpose_same_out (conv2d_transpose_same_out
        (conv2d_transpose_same_out 7 2) 2) 1 = 28 := by
  refine ⟨?_, ?_, ?_, ?_, ?_, ?_⟩
  · simp [encodeBatch]
  · simp [encodeBatch]
  · simp only [decodeBatch, reparameterizeBatch, encodeBatch, List.length_map,
      List.length_zipWith, List.length_zip, h]
    omega
  · intro x i
    exact ⟨rfl, rfl⟩
  · rfl
  · rfl

/-- Witness for claim C6 at the constant-zero model with a one-image batch
and a matching one-vector noise list. -/
theorem cvae_shape_invariants_witness :
    [zeroVec1].length = [zeroImage].length ∧
    ((encodeBatch trivialCVAE [zeroImage]).1.length = [zeroImage].length ∧
     (encodeBatch trivialCVAE [zeroImage]).2.length = [zeroImage].length ∧
     (decodeBatch trivialCVAE (reparameterizeBatch
         (encodeBatch trivialCVAE [zeroImage]).1
         (encodeBatch trivialCVAE [zeroImage]).2 [zeroVec1])).length
       = [zeroImage].length ∧
     (∀ (x : ImageT) (i : Fin 1),
         (trivialCVAE.encode x).1 i
           = trivialCVAE.inference_net x (Fin.castAdd 1 i) ∧
         (trivialCVAE.encode x).2 i
           = trivialCVAE.inference_net x (Fin.natAdd 1 i)) ∧
     conv2d_valid_out (conv2d_valid_out 28 3 2) 3 2 = 6 ∧
     conv2d_transpose_same_out (conv2d_transpose_same_out
         (conv2d_transpose_same_out 7 2) 2) 1 = 28) :=
  ⟨rfl, cvae_shape_invariants trivialCVAE [zeroImage] [zeroVec1] rfl⟩

/-- Helper: the epochs of the training events of a run over n epochs are
exactly 0..n-1 in order. -/
theorem trainingRun_filterMap_range (V : Type) (rv : V) (n : ℕ) :
    (trainingRun V n rv).filterMap epochOfTrainStep = List.range n := by
  induction n with
  | zero => rfl
  | succ k ih =>
    have hsplit : trainingRun V (k + 1) rv
        = trainingRun V k rv ++ (TrainEvent.trainEpoch k ::
            (if k % 10 = 0 then [TrainEvent.evalAndRender k rv] else [])) := by
      unfold trainingRun
      rw [List.range_succ, List.flatMap_append, List.flatMap_singleton]
    rw [hsplit, List.filterMap_append, ih]
    by_cases hk : k % 10 = 0
    · simp [hk, epochOfTrainStep, List.range_succ]
    · simp [hk, epochOfTrainStep, List.range_succ]

/-- Helper: membership characterization of the training-run event list. -/
theorem mem_trainingRun_iff (V : Type) (rv : V) (n : ℕ) (ev : TrainEvent V) :
    ev ∈ trainingRun V n rv ↔
      ∃ e, e < n ∧ (ev = TrainEvent.trainEpoch e ∨
        (e % 10 = 0 ∧ ev = TrainEvent.evalAndRender e rv)) := by
  unfold trainingRun
  rw [List.mem_flatMap]
  constructor
  · rintro ⟨e, he, hmem⟩
    refine ⟨e, List.mem_range.1 he, ?_⟩
    rcases List.mem_cons.1 hmem with hl | hr
    · exact Or.inl hl
    · by_cases hk : e % 10 = 0
      · rw [if_pos hk] at hr
        exact Or.inr ⟨hk, List.mem_singleton.1 hr⟩
      · rw [if_neg hk] at hr
        exact absurd hr (List.not_mem_nil _)
  · rintro ⟨e, he, hl | ⟨hk, hr⟩⟩
    · refine ⟨e, List.mem_range.2 he, ?_⟩
      rw [hl]
      exact List.mem_cons_self _ _
    · refine ⟨e, List.mem_range.2 he, ?_⟩
      rw [hr, if_pos hk]
      exact List.mem_cons_of_mem _ (List.mem_singleton.2 rfl)

/-- Claim C7: the training loop runs for exactly 100 epochs and terminates,
and in every epoch e the held-out evaluation together with the
image-rendering side effect on the same fixed pre-sampled latent vectors
occurs if and only if e is a multiple of 10, which includes epoch 0. -/
theorem training_schedule (V : Type) (rv : V) :
    (∀ e : ℕ, TrainEvent.trainEpoch e ∈ trainingRun V epochs rv ↔ e < 100) ∧
    (∀ (e : ℕ) (v : V), TrainEvent.evalAndRender e v ∈ trainingRun V epochs rv ↔
        (e < 100 ∧ e % 10 = 0 ∧ v = rv)) ∧
    TrainEvent.evalAndRender 0 rv ∈ trainingRun V epochs rv ∧
    (trainingRun V epochs rv).filterMap epochOfTrainStep = List.range 100 := by
  refine ⟨?_, ?_, ?_, ?_⟩
  · intro e
    rw [mem_trainingRun_iff]
    constructor
    · rintro ⟨a, ha, hl | ⟨_, hr⟩⟩
      · obtain rfl : e = a := by injection hl
        exact ha
      · exact TrainEvent.noConfusion hr
    · intro he
      exact ⟨e, he, Or.inl rfl⟩
  · intro e v
    rw [mem_trainingRun_iff]
    constructor
    · rintro ⟨a, ha, hl | ⟨hk, hr⟩⟩
      · exact TrainEvent.noConfusion hl
      · injection hr with h1 h2
        subst h1
        subst h2
        exact ⟨ha, hk, rfl⟩
    · rintro ⟨he, hk, rfl⟩
      exact ⟨e, he, Or.inr ⟨hk, rfl⟩⟩
  · exact (mem_trainingRun_iff V rv epochs _).2 ⟨0, by decide, Or.inr ⟨rfl, rfl⟩⟩
  · exact trainingRun_filterMap_range V rv epochs

/-- Helper: the structurally recursive square root agrees with Nat.sqrt. -/
theorem natSqrtIter_eq (n : ℕ) : natSqrtIter n = Nat.sqrt n := by
  induction n with
  | zero => rfl
  | succ k ih =>
    unfold natSqrtIter
    rw [ih]
    by_cases hc : (Nat.sqrt k + 1) * (Nat.sqrt k + 1) ≤ k + 1
    · rw [if_pos hc]
      have h1 : k < (Nat.sqrt k + 1) * (Nat.sqrt k + 1) := Nat.lt_succ_sqrt k
      have h2 : k + 1 < (Nat.sqrt k + 1 + 1) * (Nat.sqrt k + 1 + 1) := by nlinarith
      exact Nat.eq_sqrt.2 ⟨hc, h2⟩
    · rw [if_neg hc]
      have h1 : Nat.sqrt k * Nat.sqrt k ≤ k + 1 :=
        le_trans (Nat.sqrt_le k) (Nat.le_succ k)
      exact Nat.eq_sqrt.2 ⟨h1, Nat.lt_of_not_le hc⟩

/-- Helper: the executable rounded spacing value equals the rounding of
2 * sqrt i computed by the source for frame index i. -/
theorem roundFrame_eq_round (i : ℕ) :
    (roundFrame i : ℤ) = round (2 * Real.sqrt (i : ℝ)) := by
  have h4 : Real.sqrt ((16 * i : ℕ) : ℝ) = 4 * Real.sqrt (i : ℝ) := by
    push_cast
    rw [Real.sqrt_mul (by norm_num) (i : ℝ),
      show (16 : ℝ) = 4 ^ 2 by norm_num, Real.sqrt_sq (by norm_num)]
  have hx : 2 * Real.sqrt (i : ℝ) + 1 / 2
      = (Real.sqrt ((16 * i : ℕ) : ℝ) + 1) / 2 := by
    rw [h4]
    ring
  have h0 : (0 : ℝ) ≤ (Real.sqrt ((16 * i : ℕ) : ℝ) + 1) / 2 := by positivity
  rw [round_eq, hx, ← Int.natCast_floor_eq_floor h0, Nat.floor_div_ofNat,
    Nat.floor_add_one (Real.sqrt_nonneg _), Real.nat_floor_real_sqrt_eq_nat_sqrt]
  unfold roundFrame
  rw [natSqrtIter_eq]

/-- Helper: the selection loop returns a sublist of the frame indices it
traverses. -/
theorem selectLoop_sublist : ∀ (l : List ℕ) (r : ℤ), List.Sublist (selectLoop l r) l := by
  intro l
  induction l with
  | nil =>
    intro r
    exact List.Sublist.refl _
  | cons i rest ih =>
    intro r
    unfold selectLoop
    by_cases hc : r < (roundFrame i : ℤ)
    · rw [if_pos hc]
      exact (ih (roundFrame i)).cons₂ i
    · rw [if_neg hc]
      exact (ih r).cons i

/-- Helper: every frame kept by the selection loop has a rounded spacing
value strictly greater than the state the loop started from. -/
theorem selectLoop_mem_gt : ∀ (l : List ℕ) (r : ℤ) (x : ℕ),
    x ∈ selectLoop l r → r < (roundFrame x : ℤ) := by
  intro l
  induction l with
  | nil =>
    intro r x hx
    simp [selectLoop] at hx
  | cons i rest ih =>
    intro r x hx
    unfold selectLoop at hx
    by_cases hc : r < (roundFrame i : ℤ)
    · rw [if_pos hc] at hx
      rcases List.mem_cons.1 hx with rfl | hx2
      · exact hc
      · exact lt_trans hc (ih (roundFrame i) x hx2)
    · rw [if_neg hc] at hx
      exact ih r x hx

/-- Helper: the frames kept by the selection loop have strictly increasing
rounded spacing values. -/
theorem selectLoop_pairwise : ∀ (l : List ℕ) (r : ℤ),
    List.Pairwise (fun a b => roundFrame a < roundFrame b) (selectLoop l r) := by
  intro l
  induction l with
  | nil =>
    intro r
    simp [selectLoop]
  | cons i rest ih =>
    intro r
    unfold selectLoop
    by_cases hc : r < (roundFrame i : ℤ)
    · rw [if_pos hc]
      refine List.Pairwise.cons ?_ (ih (roundFrame i))
      intro b hb
      exact_mod_cast selectLoop_mem_gt rest (roundFrame i) b hb
    · rw [if_neg hc]
      exact ih r

/-- Helper: with at least one frame file, draw_gif succeeds and writes the
kept frames followed by one extra copy of the final frame index, which the
post-loop append reads from the loop variable. -/
theorem draw_gif_pos (N : ℕ) (h : 1 ≤ N) :
    draw_gif N = Except.ok (selectFrames N ++ [N - 1]) := by
  obtain ⟨M, rfl⟩ : ∃ M, N = M + 1 := ⟨N - 1, by omega⟩
  have hlast : (List.range (M + 1)).getLast? = some M := by
    rw [List.range_succ]
    exact List.getLast?_concat _
  unfold draw_gif
  rw [hlast]
  rfl

/-- Helper: a strictly sorted list containing an upper bound of its
elements ends with that bound. -/
theorem sorted_max_concat : ∀ (s : List ℕ) (m : ℕ),
    List.Pairwise (fun a b => a < b) s → m ∈ s → (∀ x ∈ s, x ≤ m) →
    ∃ l, s = l ++ [m] := by
  intro s
  induction s with
  | nil =>
    intro m _ hm _
    simp at hm
  | cons a t ih =>
    intro m hp hm hmax
    rcases List.mem_cons.1 hm with heq | hmem
    · cases t with
      | nil => exact ⟨[], by simp [heq]⟩
      | cons b t2 =>
        exfalso
        have hab : a < b := (List.pairwise_cons.1 hp).1 b (List.mem_cons_self _ _)
        have hba : b ≤ m :=
          hmax b (List.mem_cons_of_mem _ (List.mem_cons_self _ _))
        omega
    · obtain ⟨l, hl⟩ := ih m (List.pairwise_cons.1 hp).2 hmem
        (fun x hx => hmax x (List.mem_cons_of_mem _ hx))
      refine ⟨a :: l, ?_⟩
      rw [List.cons_append, hl]

/-- Claim C5: for every N of at least 1 sorted frame files with indices
0..N-1, the rounded spacing criterion equals round (2 * sqrt i), the frames
kept by the selection loop are strictly increasing under it, and the last
available frame N-1 is always included in the output animation. -/
theorem draw_gif_selection (N : ℕ) (h : 1 ≤ N) :
    (∀ i : ℕ, (roundFrame i : ℤ) = round (2 * Real.sqrt (i : ℝ))) ∧
    List.Pairwise (fun a b => roundFrame a < roundFrame b) (selectFrames N) ∧
    ∃ frames, draw_gif N = Except.ok frames ∧ N - 1 ∈ frames := by
  refine ⟨roundFrame_eq_round, selectLoop_pairwise _ _, ?_⟩
  refine ⟨selectFrames N ++ [N - 1], draw_gif_pos N h, ?_⟩
  simp

/-- Witness for claim C5 at five frame files. -/
theorem draw_gif_selection_witness :
    1 ≤ 5 ∧
    ((∀ i : ℕ, (roundFrame i : ℤ) = round (2 * Real.sqrt (i : ℝ))) ∧
     List.Pairwise (fun a b => roundFrame a < roundFrame b) (selectFrames 5) ∧
     ∃ frames, draw_gif 5 = Except.ok frames ∧ 5 - 1 ∈ frames) :=
  ⟨by decide, draw_gif_selection 5 (by decide)⟩

/-- Claim C8: when the glob pattern matches no existing frame file, the
post-loop append references the loop variable that the empty loop never
bound, so draw_gif fails with the uncaught NameError instead of producing
an animation. -/
theorem draw_gif_empty_error :
    draw_gif 0 = Except.error "NameError: name filename is not defined" := rfl

/-- Claim C9: draw_gif appends the final frame unconditionally after the
selection loop, so whenever the last index N-1 is itself kept by the
selection criterion the final frame is written twice in a row, and
otherwise it is written exactly once. -/
theorem draw_gif_final_frame_duplication (N : ℕ) (h : 1 ≤ N) :
    (N - 1 ∈ selectFrames N → ∃ frames, ∃ l, draw_gif N = Except.ok frames ∧
        frames = l ++ [N - 1, N - 1] ∧ frames.count (N - 1) = 2) ∧
    (N - 1 ∉ selectFrames N → ∃ frames, draw_gif N = Except.ok frames ∧
        frames.count (N - 1) = 1) := by
  have hframes := draw_gif_pos N h
  have hpair : List.Pairwise (fun a b => a < b) (selectFrames N) :=
    (List.pairwise_lt_range N).sublist (selectLoop_sublist _ _)
  have hbound : ∀ x ∈ selectFrames N, x ≤ N - 1 := by
    intro x hx
    have hxr : x ∈ List.range N := (selectLoop_sublist _ _).subset hx
    have hlt := List.mem_range.1 hxr
    omega
  constructor
  · intro hmem
    obtain ⟨l, hl⟩ := sorted_max_concat (selectFrames N) (N - 1) hpair hmem hbound
    refine ⟨selectFrames N ++ [N - 1], l, hframes, ?_, ?_⟩
    · rw [hl, List.append_assoc]
      rfl
    · have hnotin : N - 1 ∉ l := by
        intro hx
        have hrel := (List.pairwise_append.1 (hl ▸ hpair)).2.2 (N - 1) hx (N - 1)
          (List.mem_singleton.2 rfl)
        omega
      rw [hl, List.append_assoc, List.count_append,
        List.count_eq_zero_of_not_mem hnotin]
      simp
  · intro hmem
    refine ⟨selectFrames N ++ [N - 1], hframes, ?_⟩
    rw [List.count_append, List.count_eq_zero_of_not_mem hmem]
    simp

/-- Witness for claim C9: with two frame files the last index is kept and
the final frame is written twice in a row; with six frame files the last
index is skipped by the criterion and the final frame is written once. -/
theorem draw_gif_final_frame_duplication_witness :
    (∃ frames, ∃ l, draw_gif 2 = Except.ok frames ∧
        frames = l ++ [2 - 1, 2 - 1] ∧ frames.count (2 - 1) = 2) ∧
    (∃ frames, draw_gif 6 = Except.ok frames ∧ frames.count (6 - 1) = 1) :=
  ⟨(draw_gif_final_frame_duplication 2 (by decide)).1 (by decide),
   (draw_gif_final_frame_duplication 6 (by decide)).2 (by decide)⟩
